import Mathlib

/-!
Shallow embedding of the vapi-memory core (token estimation, similarity
scoring, budgeted section formatting, the LRU profile cache, context
assembly and container-tag sanitization), followed by theorems settling
the specification claims about it.

JavaScript strings are modelled as Lean `String`, JavaScript numbers that
hold integer quantities as `Int` or `Nat`, and fractional results as `ℚ`.
-/

/-- Models the JavaScript `\s` character class as used by `trim` and
`split(/\s+/)` on the ASCII inputs this library handles. -/
def jsWhitespace (c : Char) : Bool :=
  c.isWhitespace

/-- Models `String.prototype.toLowerCase` (ASCII case folding). -/
def jsToLower (s : String) : String :=
  String.mk (s.data.map Char.toLower)

/-- Models `String.prototype.trim`: strip leading and trailing whitespace. -/
def jsTrim (s : String) : String :=
  String.mk (((s.data.dropWhile jsWhitespace).reverse.dropWhile jsWhitespace).reverse)

/-- Models `text.split(/\s+/)` restricted to the nonempty chunks, i.e. the
maximal whitespace-free runs of the character list.  (The code either
trims its input first or filters out empty chunks, so the empty leading
chunk JavaScript can produce never survives.) -/
def splitWhitespace : List Char → List Char → List String
  | [], acc => if acc.isEmpty then [] else [String.mk acc.reverse]
  | c :: cs, acc =>
    if jsWhitespace c then
      if acc.isEmpty then splitWhitespace cs [] else String.mk acc.reverse :: splitWhitespace cs []
    else
      splitWhitespace cs (c :: acc)

/-- Embeds `TokenCounter.estimate`: 0 for empty text, otherwise the larger
of `ceil(length / 4)` and `ceil(wordCount * 0.75)`. -/
def TokenCounter.estimate (text : String) : Nat :=
  if text.length = 0 then 0
  else
    let charEstimate := (text.length + 3) / 4
    let words := splitWhitespace text.data []
    let wordEstimate := (3 * words.length + 3) / 4
    max charEstimate wordEstimate

/-- Embeds `TokenCounter.estimateMultiple`: a left fold of `estimate` sums. -/
def TokenCounter.estimateMultiple (texts : List String) : Nat :=
  texts.foldl (fun total text => total + TokenCounter.estimate text) 0

/-- Embeds `ContextFormatter.calculateSimilarity`: lowercase and trim both
inputs; equal strings score 1; then an empty side scores 0; otherwise the
Jaccard index of the two whitespace-token sets. -/
def ContextFormatter.calculateSimilarity (str1 str2 : String) : ℚ :=
  let s1 := jsTrim (jsToLower str1)
  let s2 := jsTrim (jsToLower str2)
  if s1 = s2 then 1
  else if s1.length = 0 ∨ s2.length = 0 then 0
  else
    let words1 := (splitWhitespace s1.data []).dedup
    let words2 := (splitWhitespace s2.data []).dedup
    let inter := words1.filter (fun w => w ∈ words2)
    let union := (words1 ++ words2).dedup
    (inter.length : ℚ) / (union.length : ℚ)

example : TokenCounter.estimate "" = 0 := by decide
example : TokenCounter.estimate "Hello" = 2 := by decide
example : ContextFormatter.calculateSimilarity "hello world" "hello world" = 1 := by decide
example : ContextFormatter.calculateSimilarity "" "anything" = 0 := by decide
example : ContextFormatter.calculateSimilarity "" "" = 1 := by decide

/-- Embeds the `ContextSection` interface of the formatter. -/
structure ContextSection where
  id : String
  content : String
  priority : Int
  tokens : Int
  source : String
deriving DecidableEq, Repr

/-- Embeds the `FormatOptions` interface (`separator` is optional and
defaults to two newlines inside `format`). -/
structure FormatOptions where
  maxTokens : Int
  includeTokens : Bool
  includeMetadata : Bool
  separator : Option String := none
deriving DecidableEq, Repr

/-- Embeds the optional `metadata` component of `FormattedOutput`. -/
structure FormatMetadata where
  totalItems : Nat
  includedItems : Nat
  excludedItems : Nat
  sources : List String
deriving DecidableEq, Repr

/-- Embeds the `FormattedOutput` interface. -/
structure FormattedOutput where
  formatted : String
  usedTokens : Int
  sections : List ContextSection
  metadata : Option FormatMetadata
deriving DecidableEq, Repr

/-- Sort order used by `ContextFormatter.format`'s comparator
`(a, b) => b.priority - a.priority || b.id.localeCompare(a.id)`:
`a` may be placed before `b` iff `a` has strictly higher priority, or equal
priority and an `id` that is at least as large.  (`localeCompare` is
modelled by the ordinary lexicographic string order.) -/
def sectionOrder (a b : ContextSection) : Prop :=
  b.priority < a.priority ∨ (a.priority = b.priority ∧ b.id ≤ a.id)

instance : DecidableRel sectionOrder := fun a b => by
  unfold sectionOrder; infer_instance

instance : IsTotal ContextSection sectionOrder := by
  constructor
  intro a b
  rcases lt_trichotomy a.priority b.priority with h | h | h
  · exact Or.inr (Or.inl h)
  · rcases le_total b.id a.id with h2 | h2
    · exact Or.inl (Or.inr ⟨h, h2⟩)
    · exact Or.inr (Or.inr ⟨h.symm, h2⟩)
  · exact Or.inl (Or.inl h)

instance : IsTrans ContextSection sectionOrder := by
  constructor
  rintro a b c (hab | ⟨hab, hab'⟩) (hbc | ⟨hbc, hbc'⟩)
  · exact Or.inl (lt_trans hbc hab)
  · exact Or.inl (hbc ▸ hab)
  · exact Or.inl (hab ▸ hbc)
  · exact Or.inr ⟨hab.trans hbc, hbc'.trans hab'⟩

/-- Embeds the loop body of `ContextFormatter.deduplicate`: `seen` is the
set of normalized contents already admitted, `acc` the accepted sections in
order.  A section is dropped on an exact normalized match or when its raw
content is more than 0.85-similar to an already accepted section. -/
def ContextFormatter.dedupGo (seen : List String) (acc : List ContextSection) :
    List ContextSection → List ContextSection
  | [] => acc
  | s :: rest =>
    let normalized := jsTrim (jsToLower s.content)
    if normalized ∈ seen then
      ContextFormatter.dedupGo seen acc rest
    else if acc.any (fun t => ContextFormatter.calculateSimilarity t.content s.content > (0.85 : ℚ)) then
      ContextFormatter.dedupGo seen acc rest
    else
      ContextFormatter.dedupGo (normalized :: seen) (acc ++ [s]) rest

/-- Embeds `ContextFormatter.deduplicate`. -/
def ContextFormatter.deduplicate (sections : List ContextSection) : List ContextSection :=
  ContextFormatter.dedupGo [] [] sections

/-- Embeds the budget-selection loop of `ContextFormatter.format`: returns
`(included, excluded, usedTokens)` for a starting token count `used`.  A
section whose tokens would push the running total past `maxTokens` is
excluded and iteration continues. -/
def ContextFormatter.selectGo (maxTokens : Int) :
    List ContextSection → Int → List ContextSection × List ContextSection × Int
  | [], used => ([], [], used)
  | s :: rest, used =>
    if used + s.tokens > maxTokens then
      let r := ContextFormatter.selectGo maxTokens rest used
      (r.1, s :: r.2.1, r.2.2)
    else
      let r := ContextFormatter.selectGo maxTokens rest (used + s.tokens)
      (s :: r.1, r.2.1, r.2.2)

/-- Per-section rendering step of `ContextFormatter.format`: content, then
optional ` [source]`, then optional ` [Nt]`, then the separator. -/
def ContextFormatter.renderSection (includeMetadata includeTokens : Bool)
    (separator : String) (s : ContextSection) : String :=
  s.content
    ++ (if includeMetadata then " [" ++ s.source ++ "]" else "")
    ++ (if includeTokens then " [" ++ toString s.tokens ++ "t]" else "")
    ++ separator

/-- Models `Array.from(new Set(list))`: deduplication keeping the first
occurrence of each element, in order. -/
def jsSetDedupGo (seen : List String) : List String → List String
  | [] => []
  | x :: xs => if x ∈ seen then jsSetDedupGo seen xs else x :: jsSetDedupGo (x :: seen) xs

/-- First-occurrence deduplication of a string list (insertion order of a
JavaScript `Set`). -/
def jsSetDedup (l : List String) : List String :=
  jsSetDedupGo [] l

/-- Embeds `ContextFormatter.format`: sort by `sectionOrder`, deduplicate,
select greedily within the token budget, render (with optional summary
line), and attach metadata when requested. -/
def ContextFormatter.format (sections : List ContextSection) (options : FormatOptions) :
    FormattedOutput :=
  let maxTokens := options.maxTokens
  let includeTokens := options.includeTokens
  let includeMetadata := options.includeMetadata
  let separator := options.separator.getD "\n\n"
  let sorted := List.insertionSort sectionOrder sections
  let deduplicated := ContextFormatter.deduplicate sorted
  let sel := ContextFormatter.selectGo maxTokens deduplicated 0
  let included := sel.1
  let excluded := sel.2.1
  let usedTokens := sel.2.2
  let body := included.foldl
    (fun acc s => acc ++ ContextFormatter.renderSection includeMetadata includeTokens separator s) ""
  let formatted :=
    if includeTokens then
      body ++ "\nTotal: " ++ toString usedTokens ++ "/" ++ toString maxTokens ++ " tokens"
    else body
  let sources := jsSetDedup (included.map (fun s => s.source))
  { formatted := jsTrim formatted
    usedTokens := usedTokens
    sections := included
    metadata :=
      if includeMetadata then
        some ⟨deduplicated.length, included.length, excluded.length, sources⟩
      else none }

example :
    (ContextFormatter.format [] ⟨100, true, false, none⟩).formatted = "Total: 0/100 tokens" := by
  decide

example :
    (ContextFormatter.format
      [⟨"1", "User loves coffee", 1, 10, "profile"⟩,
       ⟨"2", "User loves coffee", 2, 10, "search"⟩]
      ⟨30, false, false, none⟩).usedTokens = 10 := by
  decide

example :
    (ContextFormatter.format [⟨"a", "hello", 1, 3, "s"⟩] ⟨10, false, false, none⟩).formatted
      = "hello" := by
  decide

/-- Embeds the `CacheEntry<T>` interface: a cached value with its
last-touch timestamp and hit counter. -/
structure CacheEntry (V : Type) where
  value : V
  timestamp : Nat
  hits : Nat
deriving DecidableEq, Repr

/-- Lookup in a JavaScript `Map` modelled as an association list in
insertion order (`Map.prototype.get`). -/
def mapFind {K : Type} [DecidableEq K] {β : Type} (k : K) : List (K × β) → Option β
  | [] => none
  | (k', e) :: rest => if k' = k then some e else mapFind k rest

/-- Removal of the entry of a key from a `Map` modelled as an association
list (`Map.prototype.delete`); removes the first matching entry, which is
the only one since `Map` keys are unique. -/
def mapErase {K : Type} [DecidableEq K] {β : Type} (k : K) : List (K × β) → List (K × β)
  | [] => []
  | (k', e) :: rest => if k' = k then rest else (k', e) :: mapErase k rest

/-- Insertion into a `Map` modelled as an association list
(`Map.prototype.set`): update in place when the key is present, otherwise
append at the most-recent end. -/
def mapInsert {K : Type} [DecidableEq K] {β : Type} (k : K) (e : β) :
    List (K × β) → List (K × β)
  | [] => [(k, e)]
  | (k', e') :: rest => if k' = k then (k, e) :: rest else (k', e') :: mapInsert k e rest

/-- Embeds the `LRUCache<K, V>` class state: the backing `Map` in
insertion (= recency) order, the configured maximum size, and the
separately tracked `currentSize` counter. -/
structure LRUCache (K V : Type) where
  cache : List (K × CacheEntry V)
  maxSize : Nat
  currentSize : Int
deriving DecidableEq, Repr

/-- Embeds the `LRUCache` constructor: empty map, `currentSize = 0`. -/
def LRUCache.empty (K V : Type) (maxSize : Nat) : LRUCache K V :=
  ⟨[], maxSize, 0⟩

/-- Embeds `LRUCache.get`: on a hit, bump the hit counter, refresh the
timestamp to `now` and move the entry to the most-recently-used end
(delete + re-insert); on a miss leave the cache unchanged. -/
def LRUCache.get {K V : Type} [DecidableEq K] (c : LRUCache K V) (now : Nat) (key : K) :
    Option V × LRUCache K V :=
  match mapFind key c.cache with
  | some entry =>
    let entry' : CacheEntry V := { entry with hits := entry.hits + 1, timestamp := now }
    (some entry.value, { c with cache := mapInsert key entry' (mapErase key c.cache) })
  | none => (none, c)

/-- Embeds `LRUCache.set`: drop a pre-existing entry for the key, evict
the head (least recently used) entry when `currentSize >= maxSize`, then
append a fresh entry with `hits = 0` and `timestamp = now`. -/
def LRUCache.set {K V : Type} [DecidableEq K] (c : LRUCache K V) (now : Nat) (key : K)
    (value : V) : LRUCache K V :=
  let c1 :=
    if (mapFind key c.cache).isSome then
      { c with cache := mapErase key c.cache, currentSize := c.currentSize - 1 }
    else c
  let c2 :=
    if (c1.maxSize : Int) ≤ c1.currentSize then
      match c1.cache.head? with
      | some (firstKey, _) =>
        { c1 with cache := mapErase firstKey c1.cache, currentSize := c1.currentSize - 1 }
      | none => c1
    else c1
  { c2 with cache := mapInsert key ⟨value, now, 0⟩ c2.cache, currentSize := c2.currentSize + 1 }

/-- Embeds `LRUCache.has`. -/
def LRUCache.hasKey {K V : Type} [DecidableEq K] (c : LRUCache K V) (key : K) : Bool :=
  (mapFind key c.cache).isSome

/-- Embeds `LRUCache.delete`: returns whether the key was present and the
updated cache (decrementing `currentSize` only on an actual removal). -/
def LRUCache.delete {K V : Type} [DecidableEq K] (c : LRUCache K V) (key : K) :
    Bool × LRUCache K V :=
  if (mapFind key c.cache).isSome then
    (true, { c with cache := mapErase key c.cache, currentSize := c.currentSize - 1 })
  else (false, c)

/-- Embeds `LRUCache.clear`. -/
def LRUCache.clear {K V : Type} (c : LRUCache K V) : LRUCache K V :=
  { c with cache := [], currentSize := 0 }

/-- Embeds `LRUCache.size` (returns the tracked counter, not the map's
own size). -/
def LRUCache.size {K V : Type} (c : LRUCache K V) : Int :=
  c.currentSize

/-- Embeds `LRUCache.cleanup`: delete every entry whose timestamp is
strictly older than `now - maxAge` and return how many were removed.
The source iterates the map and calls `delete` per expired key; as `Map`
keys are unique this equals filtering the entries and decrementing
`currentSize` once per removed entry. -/
def LRUCache.cleanup {K V : Type} (c : LRUCache K V) (now maxAge : Nat) :
    Nat × LRUCache K V :=
  let cutoffTime : Int := (now : Int) - (maxAge : Int)
  let expired := c.cache.filter (fun p => (p.2.timestamp : Int) < cutoffTime)
  let kept := c.cache.filter (fun p => ¬ ((p.2.timestamp : Int) < cutoffTime))
  (expired.length, { c with cache := kept, currentSize := c.currentSize - expired.length })

/-- Embeds one element of the `entries` list returned by
`LRUCache.getStats`. -/
structure CacheStatsEntry (K : Type) where
  key : K
  hits : Nat
  age : Int
deriving DecidableEq, Repr

/-- Embeds the record returned by `LRUCache.getStats`. -/
structure CacheStats (K : Type) where
  size : Int
  maxSize : Nat
  hitRate : ℚ
  entries : List (CacheStatsEntry K)
deriving DecidableEq, Repr

/-- Embeds `LRUCache.getStats`: `totalHits` sums the per-entry hit
counters, `totalAccess = totalHits + (maxSize - map size)`, and `hitRate`
is their quotient guarded to 0 whenever `totalAccess` is not positive. -/
def LRUCache.getStats {K V : Type} (c : LRUCache K V) (now : Nat) : CacheStats K :=
  let totalHits : Nat := (c.cache.map (fun p => p.2.hits)).sum
  let totalAccess : Int := ((totalHits : Nat) : Int) + ((c.maxSize : Int) - (c.cache.length : Int))
  { size := c.currentSize
    maxSize := c.maxSize
    hitRate := if 0 < totalAccess then (totalHits : ℚ) / (totalAccess : ℚ) else 0
    entries := c.cache.map (fun p => ⟨p.1, p.2.hits, (now : Int) - (p.2.timestamp : Int)⟩) }

/-- One observable operation of the `LRUCache` public interface, with the
`Date.now()` reading it uses where relevant. -/
inductive CacheOp (K V : Type) where
  | get (now : Nat) (key : K)
  | set (now : Nat) (key : K) (value : V)
  | hasKey (key : K)
  | delete (key : K)
  | clear
  | cleanup (now maxAge : Nat)

/-- State transition of a single `CacheOp` (return values discarded). -/
def applyOp {K V : Type} [DecidableEq K] (c : LRUCache K V) : CacheOp K V → LRUCache K V
  | .get now k => (c.get now k).2
  | .set now k v => c.set now k v
  | .hasKey _ => c
  | .delete k => (c.delete k).2
  | .clear => c.clear
  | .cleanup now maxAge => (c.cleanup now maxAge).2

/-- Run a sequence of cache operations from a starting state. -/
def runOps {K V : Type} [DecidableEq K] (c : LRUCache K V) (ops : List (CacheOp K V)) :
    LRUCache K V :=
  ops.foldl applyOp c

example :
    (((((LRUCache.empty String Nat 2).set 0 "a" 1).set 1 "b" 2).set 2 "c" 3).hasKey "a")
      = false := by decide
example :
    (((((LRUCache.empty String Nat 2).set 0 "a" 1).set 1 "b" 2).set 2 "c" 3).hasKey "b")
      = true := by decide

/-- Embeds the `profile` field shape of a Supermemory profile response
(`static` long-term facts and `dynamic` recent facts). -/
structure ProfileData where
  static : List String
  dynamic : List String
deriving DecidableEq, Repr

/-- Embeds one backend search result (`memory` may be absent). -/
structure SearchResult where
  memory : Option String
  score : ℚ
deriving DecidableEq, Repr

/-- Embeds a backend search response. -/
structure SearchResponse where
  results : List SearchResult
deriving DecidableEq, Repr

/-- Embeds the `SupermemoryProfile` response type (profile plus optional
carried search results). -/
structure SupermemoryProfile where
  profile : ProfileData
  searchResults : Option SearchResponse
deriving DecidableEq, Repr

/-- Embeds the `metadata` field of `FormattedContext`. -/
structure ContextMetadata where
  userId : String
  retrievalTime : Int
  sources : List String
deriving DecidableEq, Repr

/-- Embeds the `FormattedContext` record returned by `getContext`. -/
structure FormattedContext where
  profile : Option ProfileData
  recentMemories : List String
  searchResults : List String
  totalTokens : Nat
  metadata : ContextMetadata
deriving DecidableEq, Repr

/-- Embeds the `GetContextRequest` interface (optional fields are `none`
when the caller omits them). -/
structure GetContextRequest where
  userId : String
  query : Option String := none
  callId : Option String := none
  includeProfile : Option Bool := none
  includeRecent : Option Bool := none
  includeSearch : Option Bool := none
  maxTokens : Option Int := none
deriving DecidableEq, Repr

/-- Cache-check step of `getContext` (the `if (this.options.cacheEnabled)`
block): on a hit, populate the profile from the cached value, count its
tokens, record `"cache"` (and possibly the cached search results plus
`"search"`), and return the cache updated by the recency-promoting `get`. -/
def VapiMemory.cacheStep (cacheEnabled : Bool)
    (profileCache : LRUCache String SupermemoryProfile) (now : Nat)
    (request : GetContextRequest) (ctx : FormattedContext) (cacheKey : String) :
    FormattedContext × List String × LRUCache String SupermemoryProfile :=
  if cacheEnabled then
    match profileCache.get now cacheKey with
    | (some cached, pc) =>
      let withProfile : FormattedContext :=
        { ctx with
            profile := some cached.profile
            totalTokens := ctx.totalTokens
              + TokenCounter.estimateMultiple cached.profile.static
              + TokenCounter.estimateMultiple cached.profile.dynamic }
      match cached.searchResults with
      | some sr =>
        if request.includeSearch ≠ some false then
          let srs := sr.results.filterMap (fun r => r.memory)
          ({ withProfile with
              searchResults := srs
              totalTokens := withProfile.totalTokens + TokenCounter.estimateMultiple srs },
            ["cache", "search"], pc)
        else (withProfile, ["cache"], pc)
      | none => (withProfile, ["cache"], pc)
    | (none, pc) => (ctx, [], pc)
  else (ctx, [], profileCache)

/-- Backend-profile step of `getContext`: runs only when no profile was
taken from the cache and `includeProfile !== false`; on success caches the
response (when caching is enabled), populates the profile (and possibly
the carried search results), and records `"profile"` (and possibly
`"search"`); on failure logs a warning and leaves everything unchanged. -/
def VapiMemory.profileStep (cacheEnabled : Bool)
    (cache1 : LRUCache String SupermemoryProfile) (now : Nat)
    (request : GetContextRequest) (ctx : FormattedContext) (cacheKey : String)
    (profileResult : Except String SupermemoryProfile) :
    FormattedContext × List String × LRUCache String SupermemoryProfile :=
  if ctx.profile.isNone ∧ request.includeProfile ≠ some false then
    match profileResult with
    | .ok profile =>
      let cache2 := if cacheEnabled then cache1.set now cacheKey profile else cache1
      let withProfile : FormattedContext :=
        { ctx with
            profile := some profile.profile
            totalTokens := ctx.totalTokens
              + TokenCounter.estimateMultiple profile.profile.static
              + TokenCounter.estimateMultiple profile.profile.dynamic }
      match profile.searchResults with
      | some sr =>
        if request.includeSearch ≠ some false then
          let srs := sr.results.filterMap (fun r => r.memory)
          ({ withProfile with
              searchResults := srs
              totalTokens := withProfile.totalTokens + TokenCounter.estimateMultiple srs },
            ["profile", "search"], cache2)
        else (withProfile, ["profile"], cache2)
      | none => (withProfile, ["profile"], cache2)
    | .error _ => (ctx, [], cache1)
  else (ctx, [], cache1)

/-- Recent-memories step of `getContext`: runs only when
`includeRecent !== false` and a `callId` was supplied; on success fills
`recentMemories` from the results that carry a `memory` field and records
`"recent-memories"`; on failure logs a warning and leaves everything
unchanged. -/
def VapiMemory.recentStep (request : GetContextRequest) (ctx : FormattedContext)
    (memoriesResult : Except String SearchResponse) :
    FormattedContext × List String :=
  if request.includeRecent ≠ some false ∧ request.callId.isSome then
    match memoriesResult with
    | .ok memories =>
      let recents := memories.results.filterMap (fun r => r.memory)
      ({ ctx with
          recentMemories := recents
          totalTokens := ctx.totalTokens + TokenCounter.estimateMultiple recents },
        ["recent-memories"])
    | .error _ => (ctx, [])
  else (ctx, [])

/-- Embeds `VapiMemory.getContext`.  The two backend calls are modelled by
their outcomes (`profileResult`, `memoriesResult`); `Date.now()` is
modelled by the frozen clock `now`.  Sub-fetch failures are handled inside
their step, so the function always produces `Except.ok`; the outer
`try/catch` (which would wrap any other exception) has no failing case in
this pure model. -/
def VapiMemory.getContext (cacheEnabled : Bool)
    (profileCache : LRUCache String SupermemoryProfile) (now : Nat)
    (request : GetContextRequest) (profileResult : Except String SupermemoryProfile)
    (memoriesResult : Except String SearchResponse) :
    Except String (FormattedContext × LRUCache String SupermemoryProfile) :=
  let startTime := now
  let ctx0 : FormattedContext :=
    { profile := none, recentMemories := [], searchResults := [], totalTokens := 0
      metadata := { userId := request.userId, retrievalTime := 0, sources := [] } }
  let cacheKey := "profile:" ++ request.userId
  let s1 := VapiMemory.cacheStep cacheEnabled profileCache now request ctx0 cacheKey
  let s2 := VapiMemory.profileStep cacheEnabled s1.2.2 now request s1.1 cacheKey profileResult
  let s3 := VapiMemory.recentStep request s2.1 memoriesResult
  let endTime := now
  let final : FormattedContext :=
    { s3.1 with
        metadata :=
          { userId := request.userId
            retrievalTime := (endTime : Int) - (startTime : Int)
            sources := s1.2.1 ++ s2.2.1 ++ s3.2 } }
  Except.ok (final, s2.2.2)

/-- Character class `[A-Za-z0-9_-]` kept by
`SupermemoryClient.sanitizeContainerTag`. -/
def isTagChar (c : Char) : Bool :=
  c.isAlphanum || c == '_' || c == '-'

/-- Embeds `SupermemoryClient.sanitizeContainerTag`
(`tag.replace(/[^a-zA-Z0-9_-]/g, '')`): keep exactly the characters in
`[A-Za-z0-9_-]`. -/
def sanitizeContainerTag (tag : String) : String :=
  String.mk (tag.data.filter isTagChar)

/-- Payload of `client.profile({...})` as built by
`SupermemoryClient.getProfile`. -/
structure ProfileRequest where
  containerTag : String
  q : Option String
deriving DecidableEq, Repr

/-- Payload of `client.add({...})` as built by
`SupermemoryClient.addMemory`. -/
structure AddRequest where
  content : String
  containerTag : String
deriving DecidableEq, Repr

/-- Payload of `client.search.memories({...})` as built by
`SupermemoryClient.searchMemories`. -/
structure SearchMemoriesRequest where
  q : String
  containerTag : String
  threshold : Option ℚ
  limit : Nat
deriving DecidableEq, Repr

/-- Payload of `client.search.documents({...})` as built by
`SupermemoryClient.searchDocuments`. -/
structure SearchDocumentsRequest where
  q : String
  containerTags : List String
  limit : Nat
deriving DecidableEq, Repr

/-- Embeds the request construction of `SupermemoryClient.getProfile`. -/
def SupermemoryClient.getProfileRequest (containerTag : String) (query : Option String) :
    ProfileRequest :=
  ⟨sanitizeContainerTag containerTag, query⟩

/-- Embeds the request construction of `SupermemoryClient.addMemory`. -/
def SupermemoryClient.addMemoryRequest (content containerTag : String) : AddRequest :=
  ⟨content, sanitizeContainerTag containerTag⟩

/-- Embeds the request construction of `SupermemoryClient.searchMemories`
(default limit 5 via `limit || 5`). -/
def SupermemoryClient.searchMemoriesRequest (query containerTag : String)
    (threshold : Option ℚ) (limit : Option Nat) : SearchMemoriesRequest :=
  ⟨query, sanitizeContainerTag containerTag, threshold, limit.getD 5⟩

/-- Embeds the request construction of `SupermemoryClient.searchDocuments`
(every tag in the list is sanitized). -/
def SupermemoryClient.searchDocumentsRequest (query : String) (containerTags : List String)
    (limit : Option Nat) : SearchDocumentsRequest :=
  ⟨query, containerTags.map sanitizeContainerTag, limit.getD 5⟩

example : sanitizeContainerTag "+1-555_abc!" = "1-555_abc" := by decide

/-- Bookkeeping invariant of `LRUCache`: the tracked `currentSize` equals
the number of entries actually stored, and the stored keys are distinct
(as they are in a JavaScript `Map`). -/
def SizeInv {K V : Type} (c : LRUCache K V) : Prop :=
  c.currentSize = (c.cache.length : Int) ∧ (c.cache.map Prod.fst).Nodup

/-- The final `usedTokens` of the budget loop is the starting count plus
the tokens of the included sections. -/
theorem selectGo_usedTokens_eq (m : Int) :
    ∀ (l : List ContextSection) (u : Int),
      (ContextFormatter.selectGo m l u).2.2
        = u + ((ContextFormatter.selectGo m l u).1.map (fun s => s.tokens)).sum := by
  intro l
  induction l with
  | nil => intro u; simp [ContextFormatter.selectGo]
  | cons s rest ih =>
    intro u
    by_cases h : u + s.tokens > m
    · simp only [ContextFormatter.selectGo, if_pos h]
      exact ih u
    · simp only [ContextFormatter.selectGo, if_neg h, List.map_cons, List.sum_cons]
      rw [ih (u + s.tokens)]
      ring

/-- The budget loop never pushes the running total past the budget. -/
theorem selectGo_le (m : Int) :
    ∀ (l : List ContextSection) (u : Int), u ≤ m →
      (ContextFormatter.selectGo m l u).2.2 ≤ m := by
  intro l
  induction l with
  | nil => intro u hu; simpa [ContextFormatter.selectGo] using hu
  | cons s rest ih =>
    intro u hu
    by_cases h : u + s.tokens > m
    · simp only [ContextFormatter.selectGo, if_pos h]
      exact ih u hu
    · simp only [ContextFormatter.selectGo, if_neg h]
      exact ih (u + s.tokens) (not_lt.mp h)

theorem format_sections_eq (sections : List ContextSection) (options : FormatOptions) :
    (ContextFormatter.format sections options).sections
      = (ContextFormatter.selectGo options.maxTokens
          (ContextFormatter.deduplicate (List.insertionSort sectionOrder sections)) 0).1 := rfl

theorem format_usedTokens_eq (sections : List ContextSection) (options : FormatOptions) :
    (ContextFormatter.format sections options).usedTokens
      = (ContextFormatter.selectGo options.maxTokens
          (ContextFormatter.deduplicate (List.insertionSort sectionOrder sections)) 0).2.2 := rfl

/-- C1: with a nonnegative budget, the sum of `tokens` over the returned
`sections` equals the returned `usedTokens`, and that total never exceeds
`maxTokens`: a section is accepted only if the running total plus its
tokens stays within the budget, otherwise it is excluded and iteration
continues with the remaining sections. -/
theorem budget_selection_sound (sections : List ContextSection) (options : FormatOptions)
    (hmax : 0 ≤ options.maxTokens) :
    (((ContextFormatter.format sections options).sections.map (fun s => s.tokens)).sum
        = (ContextFormatter.format sections options).usedTokens)
      ∧ (ContextFormatter.format sections options).usedTokens ≤ options.maxTokens := by
  rw [format_sections_eq, format_usedTokens_eq]
  constructor
  · rw [selectGo_usedTokens_eq]
    simp
  · exact selectGo_le options.maxTokens _ 0 hmax

/-- Witness for C1 at a concrete input. -/
theorem budget_selection_sound_witness :
    (((ContextFormatter.format [⟨"a", "hello", 1, 3, "s"⟩] ⟨10, false, false, none⟩).sections.map
        (fun s => s.tokens)).sum
      = (ContextFormatter.format [⟨"a", "hello", 1, 3, "s"⟩] ⟨10, false, false, none⟩).usedTokens)
    ∧ (ContextFormatter.format [⟨"a", "hello", 1, 3, "s"⟩] ⟨10, false, false, none⟩).usedTokens
        ≤ (10 : Int) :=
  budget_selection_sound [⟨"a", "hello", 1, 3, "s"⟩] ⟨10, false, false, none⟩ (by decide)

/-- The dedup loop only ever appends a subsequence of its input to the
accumulator. -/
theorem dedupGo_eq_append_sublist :
    ∀ (l : List ContextSection) (seen : List String) (acc : List ContextSection),
      ∃ l', l'.Sublist l ∧ ContextFormatter.dedupGo seen acc l = acc ++ l' := by
  intro l
  induction l with
  | nil => intro seen acc; exact ⟨[], List.Sublist.refl _, by simp [ContextFormatter.dedupGo]⟩
  | cons s rest ih =>
    intro seen acc
    by_cases h1 : jsTrim (jsToLower s.content) ∈ seen
    · obtain ⟨l', hsub, heq⟩ := ih seen acc
      exact ⟨l', hsub.cons s, by simpa [ContextFormatter.dedupGo, h1] using heq⟩
    · by_cases h2 : acc.any
        (fun t => ContextFormatter.calculateSimilarity t.content s.content > (0.85 : ℚ))
      · obtain ⟨l', hsub, heq⟩ := ih seen acc
        exact ⟨l', hsub.cons s, by simpa [ContextFormatter.dedupGo, h1, h2] using heq⟩
      · obtain ⟨l', hsub, heq⟩ := ih (jsTrim (jsToLower s.content) :: seen) (acc ++ [s])
        refine ⟨s :: l', hsub.cons₂ s, ?_⟩
        simpa [ContextFormatter.dedupGo, h1, h2] using heq

/-- The deduplicated list is a subsequence of the sorted input. -/
theorem deduplicate_sublist (l : List ContextSection) :
    (ContextFormatter.deduplicate l).Sublist l := by
  obtain ⟨l', hsub, heq⟩ := dedupGo_eq_append_sublist l [] []
  simpa [ContextFormatter.deduplicate, heq] using hsub

/-- The included list of the budget loop is a subsequence of its input. -/
theorem selectGo_included_sublist (m : Int) :
    ∀ (l : List ContextSection) (u : Int), (ContextFormatter.selectGo m l u).1.Sublist l := by
  intro l
  induction l with
  | nil => intro u; simp [ContextFormatter.selectGo]
  | cons s rest ih =>
    intro u
    by_cases h : u + s.tokens > m
    · simpa only [ContextFormatter.selectGo, if_pos h] using (ih u).cons s
    · simpa only [ContextFormatter.selectGo, if_neg h] using (ih (u + s.tokens)).cons₂ s

/-- C7: the output `sections` list is ordered by descending `priority`,
with ties among equal-priority sections broken by descending order of
`id` (the section whose id sorts later is placed first). -/
theorem sections_sorted (sections : List ContextSection) (options : FormatOptions) :
    List.Pairwise sectionOrder (ContextFormatter.format sections options).sections := by
  rw [format_sections_eq]
  have hsorted : List.Pairwise sectionOrder (List.insertionSort sectionOrder sections) :=
    List.sorted_insertionSort sectionOrder sections
  have h1 := deduplicate_sublist (List.insertionSort sectionOrder sections)
  have h2 := selectGo_included_sublist options.maxTokens
    (ContextFormatter.deduplicate (List.insertionSort sectionOrder sections)) 0
  exact List.Pairwise.sublist (h2.trans h1) hsorted

/-- C4 as stated is false: both inputs empty after trimming hit the
exact-equality branch first, so the similarity is 1.0, not 0.0. -/
theorem similarity_both_empty_counterexample :
    ContextFormatter.calculateSimilarity "" "" = 1
      ∧ ContextFormatter.calculateSimilarity "" "" ≠ 0 := by
  constructor <;> decide

/-- C4 amended: if at least one input is empty after case folding and
trimming and the two normalized inputs differ (in particular whenever
exactly one of them is empty), the similarity is 0.0; and every
case-insensitive trimmed exact match — including the both-empty case —
scores 1.0. -/
theorem similarity_spec (a b : String) :
    (((jsTrim (jsToLower a) = "" ∨ jsTrim (jsToLower b) = "")
        ∧ jsTrim (jsToLower a) ≠ jsTrim (jsToLower b))
      → ContextFormatter.calculateSimilarity a b = 0)
    ∧ (jsTrim (jsToLower a) = jsTrim (jsToLower b)
      → ContextFormatter.calculateSimilarity a b = 1) := by
  constructor
  · rintro ⟨hempty, hne⟩
    have hlen : (jsTrim (jsToLower a)).length = 0 ∨ (jsTrim (jsToLower b)).length = 0 := by
      rcases hempty with h | h
      · exact Or.inl (by rw [h]; rfl)
      · exact Or.inr (by rw [h]; rfl)
    simp only [ContextFormatter.calculateSimilarity, if_neg hne, if_pos hlen]
  · intro heq
    simp only [ContextFormatter.calculateSimilarity, if_pos heq]

/-- Witness for C4 (amended) at concrete inputs. -/
theorem similarity_spec_witness :
    ContextFormatter.calculateSimilarity "" "x" = 0
      ∧ ContextFormatter.calculateSimilarity "A " "a" = 1 :=
  ⟨(similarity_spec "" "x").1 ⟨Or.inl (by decide), by decide⟩,
   (similarity_spec "A " "a").2 (by decide)⟩

theorem dropWhile_cons_false {p : Char → Bool} {c : Char} (h : p c = false) (l : List Char) :
    List.dropWhile p (c :: l) = c :: l := by
  simp [List.dropWhile_cons, h]

/-- Trimming the summary line produced for an empty body only strips the
leading newline, whatever the rendered budget string is. -/
theorem jsTrim_total_line (mid : String) :
    jsTrim ("" ++ "\nTotal: " ++ "0" ++ "/" ++ mid ++ " tokens")
      = "Total: 0/" ++ mid ++ " tokens" := by
  obtain ⟨l⟩ := mid
  refine congrArg String.mk ?_
  have h1 : ("" ++ "\nTotal: " ++ "0" ++ "/" ++ String.mk l ++ " tokens").data.dropWhile
        jsWhitespace
      = ['T', 'o', 't', 'a', 'l', ':', ' ', '0', '/']
          ++ (l ++ [' ', 't', 'o', 'k', 'e', 'n', 's']) := rfl
  rw [h1]
  rw [List.reverse_append, List.reverse_append]
  have h2 : ([' ', 't', 'o', 'k', 'e', 'n', 's'] : List Char).reverse
      = 's' :: ['n', 'e', 'k', 'o', 't', ' '] := rfl
  rw [h2, List.append_assoc, List.cons_append]
  rw [dropWhile_cons_false rfl]
  simp [List.reverse_append, List.append_assoc]

/-- C5 as stated is false: with `includeTokens` enabled, formatting an
empty section list yields the trimmed summary line, not the empty
string. -/
theorem empty_sections_counterexample :
    (ContextFormatter.format [] ⟨100, true, false, none⟩).formatted = "Total: 0/100 tokens"
      ∧ (ContextFormatter.format [] ⟨100, true, false, none⟩).formatted ≠ "" := by
  constructor <;> decide

/-- C5 amended: formatting an empty section list yields `usedTokens = 0`,
an empty `sections` list and (when requested) all-zero metadata for every
configuration; `formatted` is the empty string when `includeTokens` is
disabled, and the bare summary line `Total: 0/maxTokens tokens` when it is
enabled. -/
theorem empty_sections_output (options : FormatOptions) :
    (options.includeTokens = false → (ContextFormatter.format [] options).formatted = "")
    ∧ (options.includeTokens = true →
        (ContextFormatter.format [] options).formatted
          = "Total: 0/" ++ toString options.maxTokens ++ " tokens")
    ∧ (ContextFormatter.format [] options).usedTokens = 0
    ∧ (ContextFormatter.format [] options).sections = []
    ∧ (options.includeMetadata = true →
        (ContextFormatter.format [] options).metadata = some ⟨0, 0, 0, []⟩) := by
  obtain ⟨m, it, im, sep⟩ := options
  refine ⟨?_, ?_, ?_, ?_, ?_⟩
  · rintro rfl
    rfl
  · rintro rfl
    have hfmt : (ContextFormatter.format [] ⟨m, true, im, sep⟩).formatted
        = jsTrim ("" ++ "\nTotal: " ++ toString (0 : Int) ++ "/" ++ toString m ++ " tokens") :=
      rfl
    rw [hfmt, show toString (0 : Int) = "0" from rfl]
    exact jsTrim_total_line (toString m)
  · rfl
  · rfl
  · rintro rfl
    rfl

/-- Witness for C5 (amended) at a concrete configuration. -/
theorem empty_sections_output_witness :
    (ContextFormatter.format [] ⟨50, true, true, none⟩).formatted
        = "Total: 0/" ++ toString (50 : Int) ++ " tokens"
      ∧ (ContextFormatter.format [] ⟨50, true, true, none⟩).usedTokens = 0
      ∧ (ContextFormatter.format [] ⟨50, true, true, none⟩).metadata = some ⟨0, 0, 0, []⟩ :=
  ⟨(empty_sections_output ⟨50, true, true, none⟩).2.1 rfl,
   (empty_sections_output ⟨50, true, true, none⟩).2.2.1,
   (empty_sections_output ⟨50, true, true, none⟩).2.2.2.2 rfl⟩

/-- C9: every backend operation transmits the container tag(s) with all
characters outside `[A-Za-z0-9_-]` stripped, so every transmitted tag
consists solely of characters from that class. -/
theorem sanitized_transmission (tag content query : String) (q : Option String)
    (thr : Option ℚ) (lim : Option Nat) (tags : List String) :
    (SupermemoryClient.getProfileRequest tag q).containerTag = sanitizeContainerTag tag
    ∧ (SupermemoryClient.addMemoryRequest content tag).containerTag = sanitizeContainerTag tag
    ∧ (SupermemoryClient.searchMemoriesRequest query tag thr lim).containerTag
        = sanitizeContainerTag tag
    ∧ (SupermemoryClient.searchDocumentsRequest query tags lim).containerTags
        = tags.map sanitizeContainerTag
    ∧ (sanitizeContainerTag tag).data = tag.data.filter isTagChar
    ∧ (∀ c ∈ (sanitizeContainerTag tag).data, isTagChar c = true)
    ∧ (∀ t ∈ (SupermemoryClient.searchDocumentsRequest query tags lim).containerTags,
        ∀ c ∈ t.data, isTagChar c = true) := by
  refine ⟨rfl, rfl, rfl, rfl, rfl, ?_, ?_⟩
  · intro c hc
    exact List.of_mem_filter hc
  · intro t ht c hc
    obtain ⟨u, _, rfl⟩ := List.mem_map.mp ht
    exact List.of_mem_filter hc

theorem mapFind_eq_none_iff {K β : Type} [DecidableEq K] (k : K) :
    ∀ l : List (K × β), mapFind k l = none ↔ k ∉ l.map Prod.fst := by
  intro l
  induction l with
  | nil => simp [mapFind]
  | cons p rest ih =>
    obtain ⟨k', e⟩ := p
    by_cases h : k' = k
    · subst h
      simp [mapFind]
    · simp only [mapFind, if_neg h, List.map_cons, List.mem_cons]
      rw [ih]
      constructor
      · rintro hnm (rfl | hm)
        · exact h rfl
        · exact hnm hm
      · intro hnm hm
        exact hnm (Or.inr hm)

theorem mapFind_isSome_iff {K β : Type} [DecidableEq K] (k : K) (l : List (K × β)) :
    (mapFind k l).isSome = true ↔ k ∈ l.map Prod.fst := by
  cases hf : mapFind k l with
  | none =>
    simp only [Option.isSome_none, Bool.false_eq_true, false_iff]
    exact (mapFind_eq_none_iff k l).mp hf
  | some e =>
    simp only [Option.isSome_some, true_iff]
    by_contra hm
    rw [← mapFind_eq_none_iff k l] at hm
    rw [hf] at hm
    exact Option.noConfusion hm

theorem mapErase_sublist {K β : Type} [DecidableEq K] (k : K) :
    ∀ l : List (K × β), (mapErase k l).Sublist l := by
  intro l
  induction l with
  | nil => simp [mapErase]
  | cons p rest ih =>
    obtain ⟨k', e⟩ := p
    by_cases h : k' = k
    · simp only [mapErase, if_pos h]
      exact List.sublist_cons_self (k', e) rest
    · simp only [mapErase, if_neg h]
      exact ih.cons₂ (k', e)

theorem length_mapErase_of_mem {K β : Type} [DecidableEq K] (k : K) :
    ∀ l : List (K × β), k ∈ l.map Prod.fst → (mapErase k l).length + 1 = l.length := by
  intro l
  induction l with
  | nil => simp
  | cons p rest ih =>
    intro hm
    obtain ⟨k', e⟩ := p
    by_cases h : k' = k
    · simp [mapErase, h]
    · have hm' : k ∈ rest.map Prod.fst := by
        rcases List.mem_cons.mp hm with h1 | h1
        · exact absurd h1.symm h
        · exact h1
      simp only [mapErase, if_neg h, List.length_cons]
      rw [← ih hm']

theorem not_mem_map_fst_mapErase {K β : Type} [DecidableEq K] (k : K) :
    ∀ l : List (K × β), (l.map Prod.fst).Nodup → k ∉ (mapErase k l).map Prod.fst := by
  intro l
  induction l with
  | nil => simp [mapErase]
  | cons p rest ih =>
    intro hnd
    obtain ⟨k', e⟩ := p
    simp only [List.map_cons, List.nodup_cons] at hnd
    by_cases h : k' = k
    · subst h
      simpa [mapErase] using hnd.1
    · simp only [mapErase, if_neg h, List.map_cons, List.mem_cons]
      rintro (rfl | hm)
      · exact h rfl
      · exact ih hnd.2 hm

theorem mapInsert_of_not_mem {K β : Type} [DecidableEq K] (k : K) (e : β) :
    ∀ l : List (K × β), k ∉ l.map Prod.fst → mapInsert k e l = l ++ [(k, e)] := by
  intro l
  induction l with
  | nil => simp [mapInsert]
  | cons p rest ih =>
    intro hm
    obtain ⟨k', e'⟩ := p
    simp only [List.map_cons, List.mem_cons] at hm
    push_neg at hm
    have h : ¬ k' = k := fun hh => hm.1 hh.symm
    simp only [mapInsert, if_neg h, List.cons_append]
    rw [ih hm.2]

theorem mapErase_head {K β : Type} [DecidableEq K] (k0 : K) (e0 : β) :
    ∀ l : List (K × β), l.head? = some (k0, e0) → mapErase k0 l = l.tail := by
  intro l
  cases l with
  | nil => intro h; exact Option.noConfusion h
  | cons p rest =>
    intro h
    have hp : p = (k0, e0) := by
      simpa using h
    subst hp
    simp [mapErase]

theorem nodup_append_single {α : Type} (x : List α) (a : α) :
    (x ++ [a]).Nodup ↔ x.Nodup ∧ a ∉ x := by
  simp [List.nodup_append, List.disjoint_singleton]

theorem sizeInv_get {K V : Type} [DecidableEq K] (c : LRUCache K V) (now : Nat) (k : K)
    (h : SizeInv c) : SizeInv (c.get now k).2 := by
  obtain ⟨hsize, hnd⟩ := h
  cases hf : mapFind k c.cache with
  | none => simpa [LRUCache.get, hf] using ⟨hsize, hnd⟩
  | some entry =>
    have hmem : k ∈ c.cache.map Prod.fst := by
      rw [← mapFind_isSome_iff k c.cache, hf]
      rfl
    have hnotmem : k ∉ (mapErase k c.cache).map Prod.fst :=
      not_mem_map_fst_mapErase k c.cache hnd
    have hins := mapInsert_of_not_mem k
      ({ entry with hits := entry.hits + 1, timestamp := now }) (mapErase k c.cache) hnotmem
    have hlen := length_mapErase_of_mem k c.cache hmem
    constructor
    · simp only [LRUCache.get, hf, hins]
      simp only [List.length_append, List.length_singleton]
      rw [hlen]
      exact hsize
    · simp only [LRUCache.get, hf, hins, List.map_append, List.map_cons, List.map_nil]
      rw [nodup_append_single]
      refine ⟨((mapErase_sublist k c.cache).map Prod.fst).nodup hnd, ?_⟩
      simpa using hnotmem

theorem sizeInv_set {K V : Type} [DecidableEq K] (c : LRUCache K V) (now : Nat) (k : K)
    (v : V) (h : SizeInv c) : SizeInv (c.set now k v) := by
  obtain ⟨hsize, hnd⟩ := h
  unfold LRUCache.set
  by_cases hf : (mapFind k c.cache).isSome = true
  · -- key already present: drop it first
    have hmem : k ∈ c.cache.map Prod.fst := (mapFind_isSome_iff k c.cache).mp hf
    have hlen := length_mapErase_of_mem k c.cache hmem
    have hnd1 : ((mapErase k c.cache).map Prod.fst).Nodup :=
      ((mapErase_sublist k c.cache).map Prod.fst).nodup hnd
    have hnm1 : k ∉ (mapErase k c.cache).map Prod.fst :=
      not_mem_map_fst_mapErase k c.cache hnd
    simp only [hf, if_true]
    set l1 := mapErase k c.cache with hl1
    have hsize1 : c.currentSize - 1 = (l1.length : Int) := by
      omega
    -- eviction step on the intermediate state
    by_cases hc : (c.maxSize : Int) ≤ c.currentSize - 1
    · simp only [hc, if_true]
      cases hh : l1.head? with
      | none =>
        have : l1 = [] := List.head?_eq_none_iff.mp hh
        simp only [this, List.length_nil] at hsize1
        constructor
        · simp [mapInsert, this, hsize1]
        · simp [mapInsert, this]
      | some p =>
        obtain ⟨k0, e0⟩ := p
        have herase := mapErase_head k0 e0 l1 hh
        have hne : l1 ≠ [] := by
          intro hnil
          rw [hnil] at hh
          exact Option.noConfusion hh
        have hpos : 0 < l1.length := List.length_pos.mpr hne
        have hlen1 : l1.tail.length + 1 = l1.length := by
          rw [List.length_tail]
          omega
        have hnd2 : (l1.tail.map Prod.fst).Nodup :=
          ((List.tail_sublist l1).map Prod.fst).nodup hnd1
        have hnm2 : k ∉ l1.tail.map Prod.fst := by
          intro hm
          exact hnm1 ((List.map_subset Prod.fst (List.tail_sublist l1).subset) hm)
        have hins := mapInsert_of_not_mem k
          (⟨v, now, 0⟩ : CacheEntry V) l1.tail hnm2
        constructor
        · simp only [herase, hins, List.length_append, List.length_singleton]
          omega
        · simp only [herase, hins, List.map_append, List.map_cons, List.map_nil]
          rw [nodup_append_single]
          exact ⟨hnd2, by simpa using hnm2⟩
    · simp only [hc, if_false]
      have hins := mapInsert_of_not_mem k (⟨v, now, 0⟩ : CacheEntry V) l1 hnm1
      constructor
      · simp only [hins, List.length_append, List.length_singleton]
        omega
      · simp only [hins, List.map_append, List.map_cons, List.map_nil]
        rw [nodup_append_single]
        exact ⟨hnd1, by simpa using hnm1⟩
  · -- key absent
    have hmem : k ∉ c.cache.map Prod.fst := by
      intro hm
      exact hf ((mapFind_isSome_iff k c.cache).mpr hm)
    simp only [hf, Bool.false_eq_true, if_false]
    by_cases hc : (c.maxSize : Int) ≤ c.currentSize
    · rw [if_pos hc]
      cases hh : c.cache.head? with
      | none =>
        have hnil : c.cache = [] := List.head?_eq_none_iff.mp hh
        constructor
        · simp [mapInsert, hnil, hnil ▸ hsize]
        · simp [mapInsert, hnil]
      | some p =>
        obtain ⟨k0, e0⟩ := p
        have herase := mapErase_head k0 e0 c.cache hh
        have hne : c.cache ≠ [] := by
          intro hnil
          rw [hnil] at hh
          exact Option.noConfusion hh
        have hlen1 : c.cache.tail.length + 1 = c.cache.length := by
          cases hcc : c.cache with
          | nil => exact absurd hcc hne
          | cons q rest => simp
        have hnd2 : (c.cache.tail.map Prod.fst).Nodup :=
          ((List.tail_sublist c.cache).map Prod.fst).nodup hnd
        have hnm2 : k ∉ c.cache.tail.map Prod.fst := by
          intro hm
          exact hmem ((List.map_subset Prod.fst (List.tail_sublist c.cache).subset) hm)
        have hins := mapInsert_of_not_mem k (⟨v, now, 0⟩ : CacheEntry V) c.cache.tail hnm2
        constructor
        · simp only [herase, hins, List.length_append, List.length_singleton]
          omega
        · simp only [herase, hins, List.map_append, List.map_cons, List.map_nil]
          rw [nodup_append_single]
          exact ⟨hnd2, by simpa using hnm2⟩
    · rw [if_neg hc]
      have hins := mapInsert_of_not_mem k (⟨v, now, 0⟩ : CacheEntry V) c.cache hmem
      constructor
      · simp only [hins, List.length_append, List.length_singleton]
        omega
      · simp only [hins, List.map_append, List.map_cons, List.map_nil]
        rw [nodup_append_single]
        exact ⟨hnd, by simpa using hmem⟩

theorem length_filter_decide_partition {α : Type} (P : α → Prop) [DecidablePred P] :
    ∀ l : List α,
      (l.filter (fun a => decide (P a))).length + (l.filter (fun a => decide (¬ P a))).length
        = l.length := by
  intro l
  induction l with
  | nil => rfl
  | cons a t ih =>
    by_cases h : P a
    · have hd : decide (P a) = true := decide_eq_true h
      have hd2 : decide (¬ P a) = false := decide_eq_false (not_not_intro h)
      simp only [List.filter_cons, hd, hd2, if_true, Bool.false_eq_true, if_false,
        List.length_cons]
      omega
    · have hd : decide (P a) = false := decide_eq_false h
      have hd2 : decide (¬ P a) = true := decide_eq_true h
      simp only [List.filter_cons, hd, hd2, if_true, Bool.false_eq_true, if_false,
        List.length_cons]
      omega

theorem sizeInv_delete {K V : Type} [DecidableEq K] (c : LRUCache K V) (k : K)
    (h : SizeInv c) : SizeInv (c.delete k).2 := by
  obtain ⟨hsize, hnd⟩ := h
  by_cases hf : (mapFind k c.cache).isSome = true
  · have hmem : k ∈ c.cache.map Prod.fst := (mapFind_isSome_iff k c.cache).mp hf
    have hlen := length_mapErase_of_mem k c.cache hmem
    constructor
    · simp only [LRUCache.delete, hf, if_true]
      omega
    · simp only [LRUCache.delete, hf, if_true]
      exact ((mapErase_sublist k c.cache).map Prod.fst).nodup hnd
  · simp only [LRUCache.delete, hf, Bool.false_eq_true, if_false]
    exact ⟨hsize, hnd⟩

theorem sizeInv_clear {K V : Type} (c : LRUCache K V) : SizeInv c.clear := by
  constructor
  · rfl
  · simp [LRUCache.clear]

theorem sizeInv_cleanup {K V : Type} (c : LRUCache K V) (now maxAge : Nat)
    (h : SizeInv c) : SizeInv (c.cleanup now maxAge).2 := by
  obtain ⟨hsize, hnd⟩ := h
  have hpart := length_filter_decide_partition
    (fun p : K × CacheEntry V => (p.2.timestamp : Int) < (now : Int) - (maxAge : Int)) c.cache
  constructor
  · simp only [LRUCache.cleanup]
    omega
  · simp only [LRUCache.cleanup]
    exact ((List.filter_sublist c.cache).map Prod.fst).nodup hnd

theorem sizeInv_applyOp {K V : Type} [DecidableEq K] (c : LRUCache K V) (op : CacheOp K V)
    (h : SizeInv c) : SizeInv (applyOp c op) := by
  cases op with
  | get now k => exact sizeInv_get c now k h
  | set now k v => exact sizeInv_set c now k v h
  | hasKey k => exact h
  | delete k => exact sizeInv_delete c k h
  | clear => exact sizeInv_clear c
  | cleanup now maxAge => exact sizeInv_cleanup c now maxAge h

theorem sizeInv_runOps {K V : Type} [DecidableEq K] :
    ∀ (ops : List (CacheOp K V)) (c : LRUCache K V), SizeInv c → SizeInv (runOps c ops) := by
  intro ops
  induction ops with
  | nil => intro c h; exact h
  | cons op rest ih =>
    intro c h
    exact ih (applyOp c op) (sizeInv_applyOp c op h)

/-- C10: across every sequence of cache operations starting from a fresh
cache, the tracked `currentSize` equals the number of stored entries, so
`size()` and `getStats().size` report the true live entry count. -/
theorem currentSize_tracks_entries {K V : Type} [DecidableEq K] (maxSize : Nat)
    (ops : List (CacheOp K V)) :
    (runOps (LRUCache.empty K V maxSize) ops).currentSize
        = ((runOps (LRUCache.empty K V maxSize) ops).cache.length : Int)
      ∧ (runOps (LRUCache.empty K V maxSize) ops).size
          = ((runOps (LRUCache.empty K V maxSize) ops).cache.length : Int)
      ∧ ((runOps (LRUCache.empty K V maxSize) ops).getStats 0).size
          = ((runOps (LRUCache.empty K V maxSize) ops).cache.length : Int) := by
  have hinv : SizeInv (runOps (LRUCache.empty K V maxSize) ops) :=
    sizeInv_runOps ops (LRUCache.empty K V maxSize) ⟨rfl, List.nodup_nil⟩
  exact ⟨hinv.1, hinv.1, hinv.1⟩

/-- C8: `getStats` reports `hitRate = totalHits / (totalHits + (maxSize -
liveCount))` where `totalHits` sums the per-entry hit counters, and
reports 0 when that denominator is 0.  (For a cache whose entry count does
not exceed `maxSize`, the denominator is never negative.) -/
theorem hitRate_formula {K V : Type} (c : LRUCache K V) (now : Nat)
    (hsize : c.cache.length ≤ c.maxSize) :
    (((((c.cache.map (fun p => p.2.hits)).sum : Nat) : Int)
          + ((c.maxSize : Int) - (c.cache.length : Int)) = 0)
      → (c.getStats now).hitRate = 0)
    ∧ (((((c.cache.map (fun p => p.2.hits)).sum : Nat) : Int)
          + ((c.maxSize : Int) - (c.cache.length : Int)) ≠ 0)
      → (c.getStats now).hitRate
          = ((((c.cache.map (fun p => p.2.hits)).sum : Nat) : ℚ)
            / (((((c.cache.map (fun p => p.2.hits)).sum : Nat) : Int)
                + ((c.maxSize : Int) - (c.cache.length : Int)) : Int) : ℚ))) := by
  constructor
  · intro hzero
    simp only [LRUCache.getStats]
    rw [if_neg]
    rw [hzero]
    exact lt_irrefl 0
  · intro hne
    have h1 : (0 : Int) ≤ (((c.cache.map (fun p => p.2.hits)).sum : Nat) : Int) :=
      Int.ofNat_nonneg _
    have h2 : (c.cache.length : Int) ≤ (c.maxSize : Int) := by
      exact_mod_cast hsize
    have hpos : 0 < (((c.cache.map (fun p => p.2.hits)).sum : Nat) : Int)
        + ((c.maxSize : Int) - (c.cache.length : Int)) := by
      omega
    simp only [LRUCache.getStats]
    rw [if_pos hpos]

/-- Witness for C8 at a concrete cache state. -/
theorem hitRate_formula_witness :
    ((⟨[("a", ⟨1, 0, 2⟩)], 3, 1⟩ : LRUCache String Nat).cache.length
        ≤ (⟨[("a", ⟨1, 0, 2⟩)], 3, 1⟩ : LRUCache String Nat).maxSize)
    ∧ (((((⟨[("a", ⟨1, 0, 2⟩)], 3, 1⟩ : LRUCache String Nat).cache.map
            (fun p => p.2.hits)).sum : Nat) : Int)
        + (((⟨[("a", ⟨1, 0, 2⟩)], 3, 1⟩ : LRUCache String Nat).maxSize : Int)
            - ((⟨[("a", ⟨1, 0, 2⟩)], 3, 1⟩ : LRUCache String Nat).cache.length : Int)) ≠ 0)
    ∧ ((⟨[("a", ⟨1, 0, 2⟩)], 3, 1⟩ : LRUCache String Nat).getStats 0).hitRate
        = (((((⟨[("a", ⟨1, 0, 2⟩)], 3, 1⟩ : LRUCache String Nat).cache.map
              (fun p => p.2.hits)).sum : Nat) : ℚ)
          / ((((((⟨[("a", ⟨1, 0, 2⟩)], 3, 1⟩ : LRUCache String Nat).cache.map
                (fun p => p.2.hits)).sum : Nat) : Int)
              + (((⟨[("a", ⟨1, 0, 2⟩)], 3, 1⟩ : LRUCache String Nat).maxSize : Int)
                  - ((⟨[("a", ⟨1, 0, 2⟩)], 3, 1⟩ : LRUCache String Nat).cache.length : Int))
                : Int) : ℚ)) :=
  ⟨by decide, by decide,
    (hitRate_formula (⟨[("a", ⟨1, 0, 2⟩)], 3, 1⟩ : LRUCache String Nat) 0 (by decide)).2
      (by decide)⟩

theorem set_fresh_at_capacity {K V : Type} [DecidableEq K] (c : LRUCache K V) (now : Nat)
    (k : K) (v : V)
    (hfresh : mapFind k c.cache = none)
    (hcap : (c.maxSize : Int) ≤ c.currentSize)
    (hne : c.cache ≠ []) :
    (c.set now k v).cache = c.cache.tail ++ [(k, ⟨v, now, 0⟩)]
      ∧ (c.set now k v).currentSize = c.currentSize
      ∧ (c.set now k v).maxSize = c.maxSize := by
  have hf : ¬ (mapFind k c.cache).isSome = true := by
    rw [hfresh]
    simp
  have hmem : k ∉ c.cache.map Prod.fst := (mapFind_eq_none_iff k c.cache).mp hfresh
  obtain ⟨p, rest, hc⟩ : ∃ p rest, c.cache = p :: rest := by
    cases hcc : c.cache with
    | nil => exact absurd hcc hne
    | cons p rest => exact ⟨p, rest, rfl⟩
  obtain ⟨k0, e0⟩ := p
  have hmem' : k ∉ rest.map Prod.fst := by
    rw [hc] at hmem
    simp only [List.map_cons, List.mem_cons] at hmem
    push_neg at hmem
    exact hmem.2
  have hins := mapInsert_of_not_mem k (⟨v, now, 0⟩ : CacheEntry V) rest hmem'
  unfold LRUCache.set
  simp only [hf, Bool.false_eq_true, if_false]
  rw [if_pos hcap]
  rw [hc]
  have herase : mapErase k0 ((k0, e0) :: rest) = rest := by
    simp [mapErase]
  simp only [List.head?_cons, List.tail_cons, herase, hins]
  refine ⟨trivial, ?_, trivial⟩
  omega

theorem set_fresh_under_capacity {K V : Type} [DecidableEq K] (c : LRUCache K V) (now : Nat)
    (k : K) (v : V)
    (hfresh : mapFind k c.cache = none)
    (hlt : c.currentSize < (c.maxSize : Int)) :
    (c.set now k v).cache = c.cache ++ [(k, ⟨v, now, 0⟩)]
      ∧ (c.set now k v).currentSize = c.currentSize + 1
      ∧ (c.set now k v).maxSize = c.maxSize := by
  have hf : ¬ (mapFind k c.cache).isSome = true := by
    rw [hfresh]
    simp
  have hmem : k ∉ c.cache.map Prod.fst := (mapFind_eq_none_iff k c.cache).mp hfresh
  have hins := mapInsert_of_not_mem k (⟨v, now, 0⟩ : CacheEntry V) c.cache hmem
  unfold LRUCache.set
  simp only [hf, Bool.false_eq_true, if_false]
  rw [if_neg (not_le.mpr hlt)]
  rw [hins]
  exact ⟨rfl, rfl, rfl⟩

theorem foldl_set_evict {K V : Type} [DecidableEq K] (now : Nat) :
    ∀ (kvs : List (K × V)) (c : LRUCache K V),
      c.currentSize = (c.cache.length : Int) →
      c.cache.length = c.maxSize →
      (∀ p ∈ kvs, mapFind p.1 c.cache = none) →
      (kvs.map Prod.fst).Nodup →
      kvs.length ≤ c.cache.length →
      (kvs.foldl (fun s p => s.set now p.1 p.2) c).cache
          = c.cache.drop kvs.length
            ++ kvs.map (fun p => (p.1, (⟨p.2, now, 0⟩ : CacheEntry V)))
        ∧ (kvs.foldl (fun s p => s.set now p.1 p.2) c).currentSize = c.currentSize
        ∧ (kvs.foldl (fun s p => s.set now p.1 p.2) c).maxSize = c.maxSize := by
  intro kvs
  induction kvs with
  | nil =>
    intro c _ _ _ _ _
    simp
  | cons q rest ih =>
    intro c h1 h2 hfresh hnd hlen
    obtain ⟨k0, v0⟩ := q
    have hne : c.cache ≠ [] := by
      intro hnil
      rw [hnil] at hlen
      simp at hlen
    have hpos : 0 < c.cache.length := List.length_pos.mpr hne
    have hcap : (c.maxSize : Int) ≤ c.currentSize := by
      rw [h1, h2]
    obtain ⟨hcache', hsize', hmax'⟩ :=
      set_fresh_at_capacity c now k0 v0 (hfresh _ (List.mem_cons_self _ _)) hcap hne
    have htail : c.cache.tail.length = c.cache.length - 1 := List.length_tail c.cache
    have hlen' : (c.set now k0 v0).cache.length = c.cache.length := by
      rw [hcache']
      simp only [List.length_append, List.length_singleton]
      omega
    have h1' : (c.set now k0 v0).currentSize = ((c.set now k0 v0).cache.length : Int) := by
      rw [hsize', hlen', h1]
    have h2' : (c.set now k0 v0).cache.length = (c.set now k0 v0).maxSize := by
      rw [hlen', hmax', h2]
    have hknotin : k0 ∉ rest.map Prod.fst := by
      simp only [List.map_cons, List.nodup_cons] at hnd
      exact hnd.1
    have hfresh' : ∀ p ∈ rest, mapFind p.1 (c.set now k0 v0).cache = none := by
      intro p hp
      rw [mapFind_eq_none_iff, hcache', List.map_append, List.map_cons, List.map_nil]
      rw [List.mem_append]
      rintro (hmem | hmem)
      · have hfp : mapFind p.1 c.cache = none := hfresh p (List.mem_cons_of_mem _ hp)
        rw [mapFind_eq_none_iff] at hfp
        exact hfp ((List.map_subset Prod.fst (List.tail_sublist c.cache).subset) hmem)
      · simp only [List.mem_singleton] at hmem
        exact hknotin (hmem ▸ List.mem_map_of_mem Prod.fst hp)
    have hnd' : (rest.map Prod.fst).Nodup := by
      simp only [List.map_cons, List.nodup_cons] at hnd
      exact hnd.2
    have hlenrest : rest.length + 1 ≤ c.cache.length := by
      simpa using hlen
    have hlen'' : rest.length ≤ (c.set now k0 v0).cache.length := by
      rw [hlen']
      omega
    obtain ⟨ihc, ihs, ihm⟩ := ih (c.set now k0 v0) h1' h2' hfresh' hnd' hlen''
    refine ⟨?_, ?_, ?_⟩
    · rw [List.foldl_cons, ihc, hcache']
      rw [List.drop_append_of_le_length (by omega : rest.length ≤ c.cache.tail.length)]
      rw [← List.drop_one, List.drop_drop]
      simp only [List.length_cons, List.map_cons, List.append_assoc, List.singleton_append,
        Nat.add_comm]
    · rw [List.foldl_cons, ihs, hsize']
    · rw [List.foldl_cons, ihm, hmax']

theorem foldl_set_fill {K V : Type} [DecidableEq K] (now : Nat) :
    ∀ (kvs : List (K × V)) (c : LRUCache K V),
      c.currentSize = (c.cache.length : Int) →
      (∀ p ∈ kvs, mapFind p.1 c.cache = none) →
      (kvs.map Prod.fst).Nodup →
      c.cache.length + kvs.length ≤ c.maxSize →
      (kvs.foldl (fun s p => s.set now p.1 p.2) c).cache
          = c.cache ++ kvs.map (fun p => (p.1, (⟨p.2, now, 0⟩ : CacheEntry V)))
        ∧ (kvs.foldl (fun s p => s.set now p.1 p.2) c).currentSize
            = c.currentSize + kvs.length
        ∧ (kvs.foldl (fun s p => s.set now p.1 p.2) c).maxSize = c.maxSize := by
  intro kvs
  induction kvs with
  | nil =>
    intro c _ _ _ _
    simp
  | cons q rest ih =>
    intro c h1 hfresh hnd hcap
    obtain ⟨k0, v0⟩ := q
    have hlt : c.currentSize < (c.maxSize : Int) := by
      rw [h1]
      have : c.cache.length + (rest.length + 1) ≤ c.maxSize := by
        simpa using hcap
      omega
    obtain ⟨hcache', hsize', hmax'⟩ :=
      set_fresh_under_capacity c now k0 v0 (hfresh _ (List.mem_cons_self _ _)) hlt
    have hlen' : (c.set now k0 v0).cache.length = c.cache.length + 1 := by
      rw [hcache']
      simp
    have h1' : (c.set now k0 v0).currentSize = ((c.set now k0 v0).cache.length : Int) := by
      rw [hsize', hlen', h1]
      push_cast
      ring
    have hknotin : k0 ∉ rest.map Prod.fst := by
      simp only [List.map_cons, List.nodup_cons] at hnd
      exact hnd.1
    have hfresh' : ∀ p ∈ rest, mapFind p.1 (c.set now k0 v0).cache = none := by
      intro p hp
      rw [mapFind_eq_none_iff, hcache', List.map_append, List.map_cons, List.map_nil]
      rw [List.mem_append]
      rintro (hmem | hmem)
      · have hfp : mapFind p.1 c.cache = none := hfresh p (List.mem_cons_of_mem _ hp)
        rw [mapFind_eq_none_iff] at hfp
        exact hfp hmem
      · simp only [List.mem_singleton] at hmem
        exact hknotin (hmem ▸ List.mem_map_of_mem Prod.fst hp)
    have hnd' : (rest.map Prod.fst).Nodup := by
      simp only [List.map_cons, List.nodup_cons] at hnd
      exact hnd.2
    have hcap' : (c.set now k0 v0).cache.length + rest.length ≤ (c.set now k0 v0).maxSize := by
      rw [hlen', hmax']
      have : c.cache.length + (rest.length + 1) ≤ c.maxSize := by
        simpa using hcap
      omega
    obtain ⟨ihc, ihs, ihm⟩ := ih (c.set now k0 v0) h1' hfresh' hnd' hcap'
    refine ⟨?_, ?_, ?_⟩
    · rw [List.foldl_cons, ihc, hcache']
      simp [List.append_assoc]
    · rw [List.foldl_cons, ihs, hsize']
      simp only [List.length_cons]
      push_cast
      ring
    · rw [List.foldl_cons, ihm, hmax']

theorem length_mapInsert_le {K β : Type} [DecidableEq K] (k : K) (e : β) :
    ∀ l : List (K × β), (mapInsert k e l).length ≤ l.length + 1 := by
  intro l
  induction l with
  | nil => simp [mapInsert]
  | cons p rest ih =>
    obtain ⟨k', e'⟩ := p
    by_cases h : k' = k
    · simp [mapInsert, h]
    · simp only [mapInsert, if_neg h, List.length_cons]
      omega

theorem set_length_le {K V : Type} [DecidableEq K] (c : LRUCache K V) (now2 : Nat) (k : K)
    (v : V) (h1 : c.currentSize = (c.cache.length : Int)) (h2 : c.cache.length ≤ c.maxSize)
    (h3 : 1 ≤ c.maxSize) : (c.set now2 k v).cache.length ≤ c.maxSize := by
  unfold LRUCache.set
  by_cases hf : (mapFind k c.cache).isSome = true
  · have hmem : k ∈ c.cache.map Prod.fst := (mapFind_isSome_iff k c.cache).mp hf
    have hlen := length_mapErase_of_mem k c.cache hmem
    simp only [hf, if_true]
    by_cases hc : (c.maxSize : Int) ≤ c.currentSize - 1
    · exfalso
      omega
    · rw [if_neg hc]
      have := length_mapInsert_le k (⟨v, now2, 0⟩ : CacheEntry V) (mapErase k c.cache)
      dsimp only
      omega
  · simp only [hf, Bool.false_eq_true, if_false]
    by_cases hc : (c.maxSize : Int) ≤ c.currentSize
    · rw [if_pos hc]
      cases hh : c.cache.head? with
      | none =>
        have hnil : c.cache = [] := List.head?_eq_none_iff.mp hh
        have := length_mapInsert_le k (⟨v, now2, 0⟩ : CacheEntry V) c.cache
        rw [hnil] at this
        simp only [hnil]
        simpa [mapInsert] using h3
      | some p =>
        obtain ⟨k0, e0⟩ := p
        have herase := mapErase_head k0 e0 c.cache hh
        have hne : c.cache ≠ [] := by
          intro hnil
          rw [hnil] at hh
          exact Option.noConfusion hh
        have hpos : 0 < c.cache.length := List.length_pos.mpr hne
        have htail := List.length_tail c.cache
        have := length_mapInsert_le k (⟨v, now2, 0⟩ : CacheEntry V) c.cache.tail
        simp only [herase]
        omega
    · rw [if_neg hc]
      have := length_mapInsert_le k (⟨v, now2, 0⟩ : CacheEntry V) c.cache
      omega

theorem map_fst_entries {K V : Type} (now : Nat) (l : List (K × V)) :
    (l.map (fun p => (p.1, (⟨p.2, now, 0⟩ : CacheEntry V)))).map Prod.fst
      = l.map Prod.fst := by
  rw [List.map_map]
  rfl

/-- C6: starting from an empty cache with capacity `cap ≥ 1`, inserting
`cap + 1` distinct keys in order leaves the first-inserted key absent and
all `cap` later keys present; and in general one `set` on a
size-consistent cache never pushes the stored entry count past the
configured maximum. -/
theorem lru_capacity_eviction {K V : Type} [DecidableEq K] (now cap : Nat) (hcap : 1 ≤ cap)
    (kv0 : K × V) (rest : List (K × V))
    (hnd : ((kv0 :: rest).map Prod.fst).Nodup)
    (hlen : rest.length = cap) :
    ((kv0 :: rest).foldl (fun s p => s.set now p.1 p.2) (LRUCache.empty K V cap)).hasKey kv0.1
        = false
    ∧ (∀ p ∈ rest,
        ((kv0 :: rest).foldl (fun s p => s.set now p.1 p.2)
          (LRUCache.empty K V cap)).hasKey p.1 = true)
    ∧ (∀ (c : LRUCache K V) (now2 : Nat) (k : K) (v : V),
        c.currentSize = (c.cache.length : Int) → c.cache.length ≤ c.maxSize →
        1 ≤ c.maxSize → (c.set now2 k v).cache.length ≤ c.maxSize) := by
  rcases List.eq_nil_or_concat rest with hnil | ⟨ys, z, rfl⟩
  · exfalso
    rw [hnil] at hlen
    simp at hlen
    omega
  simp only [List.concat_eq_append] at hnd hlen ⊢
  have hlen' : ys.length + 1 = cap := by
    simpa using hlen
  have hnd' : ((kv0 :: ys).map Prod.fst).Nodup ∧ z.1 ∉ (kv0 :: ys).map Prod.fst := by
    have h := hnd
    rw [show kv0 :: (ys ++ [z]) = (kv0 :: ys) ++ [z] from rfl] at h
    simp only [List.map_append, List.map_cons, List.map_nil] at h
    exact (nodup_append_single _ _).mp h
  obtain ⟨fc, fs, fm⟩ := foldl_set_fill now (kv0 :: ys) (LRUCache.empty K V cap) rfl
    (fun p _ => rfl) hnd'.1 (by simp [LRUCache.empty]; omega)
  have hfold : (kv0 :: (ys ++ [z])).foldl (fun s p => s.set now p.1 p.2)
        (LRUCache.empty K V cap)
      = ((kv0 :: ys).foldl (fun s p => s.set now p.1 p.2) (LRUCache.empty K V cap)).set
        now z.1 z.2 := by
    rw [show kv0 :: (ys ++ [z]) = (kv0 :: ys) ++ [z] from rfl, List.foldl_append]
    rfl
  have hfreshz : mapFind z.1
      ((kv0 :: ys).foldl (fun s p => s.set now p.1 p.2) (LRUCache.empty K V cap)).cache
        = none := by
    rw [mapFind_eq_none_iff, fc]
    simp only [LRUCache.empty, List.nil_append, map_fst_entries]
    exact hnd'.2
  have hcapz : (((kv0 :: ys).foldl (fun s p => s.set now p.1 p.2)
        (LRUCache.empty K V cap)).maxSize : Int)
      ≤ ((kv0 :: ys).foldl (fun s p => s.set now p.1 p.2)
        (LRUCache.empty K V cap)).currentSize := by
    rw [fm, fs]
    simp only [LRUCache.empty, List.length_cons]
    omega
  have hnez : ((kv0 :: ys).foldl (fun s p => s.set now p.1 p.2)
      (LRUCache.empty K V cap)).cache ≠ [] := by
    rw [fc]
    simp [LRUCache.empty]
  obtain ⟨gc, _, _⟩ := set_fresh_at_capacity _ now z.1 z.2 hfreshz hcapz hnez
  have hfinal : ((kv0 :: (ys ++ [z])).foldl (fun s p => s.set now p.1 p.2)
        (LRUCache.empty K V cap)).cache
      = (ys ++ [z]).map (fun p => (p.1, (⟨p.2, now, 0⟩ : CacheEntry V))) := by
    rw [hfold, gc, fc]
    simp only [LRUCache.empty, List.nil_append, List.map_cons, List.tail_cons,
      List.map_append, List.map_nil]
  have hkeys : (((kv0 :: (ys ++ [z])).foldl (fun s p => s.set now p.1 p.2)
        (LRUCache.empty K V cap)).cache.map Prod.fst)
      = (ys ++ [z]).map Prod.fst := by
    rw [hfinal, map_fst_entries]
  refine ⟨?_, ?_, ?_⟩
  · have hnotmem : kv0.1 ∉ (ys ++ [z]).map Prod.fst := by
      simp only [List.map_cons, List.nodup_cons] at hnd
      exact hnd.1
    have hfind : mapFind kv0.1 ((kv0 :: (ys ++ [z])).foldl (fun s p => s.set now p.1 p.2)
          (LRUCache.empty K V cap)).cache = none := by
      rw [mapFind_eq_none_iff, hkeys]
      exact hnotmem
    rw [LRUCache.hasKey, hfind]
    rfl
  · intro p hp
    have hfind : (mapFind p.1 ((kv0 :: (ys ++ [z])).foldl (fun s p => s.set now p.1 p.2)
          (LRUCache.empty K V cap)).cache).isSome = true := by
      rw [mapFind_isSome_iff, hkeys]
      exact List.mem_map_of_mem Prod.fst hp
    exact hfind
  · intro c now2 k v h1 h2 h3
    exact set_length_le c now2 k v h1 h2 h3

/-- Witness for C6 at capacity 1 with keys "a" then "b". -/
theorem lru_capacity_eviction_witness :
    ([(("a" : String), (1 : Nat)), ("b", 2)].foldl (fun s p => s.set 0 p.1 p.2)
        (LRUCache.empty String Nat 1)).hasKey "a" = false
    ∧ ([(("a" : String), (1 : Nat)), ("b", 2)].foldl (fun s p => s.set 0 p.1 p.2)
        (LRUCache.empty String Nat 1)).hasKey "b" = true :=
  ⟨(lru_capacity_eviction 0 1 (by decide) ("a", 1) [("b", 2)] (by decide) (by decide)).1,
   (lru_capacity_eviction 0 1 (by decide) ("a", 1) [("b", 2)] (by decide) (by decide)).2.1
      ("b", 2) (by simp)⟩

theorem get_head_promotes {K V : Type} [DecidableEq K] (c : LRUCache K V) (now : Nat)
    (k0 : K) (e0 : CacheEntry V) (rest : List (K × CacheEntry V))
    (hc : c.cache = (k0, e0) :: rest)
    (hnd : (c.cache.map Prod.fst).Nodup) :
    (c.get now k0).2.cache = rest ++ [(k0, ⟨e0.value, now, e0.hits + 1⟩)]
      ∧ (c.get now k0).2.currentSize = c.currentSize
      ∧ (c.get now k0).2.maxSize = c.maxSize := by
  have hfind : mapFind k0 c.cache = some e0 := by
    rw [hc]
    simp [mapFind]
  have hnotmem : k0 ∉ rest.map Prod.fst := by
    rw [hc] at hnd
    simp only [List.map_cons, List.nodup_cons] at hnd
    exact hnd.1
  have herase : mapErase k0 c.cache = rest := by
    rw [hc]
    simp [mapErase]
  have hins := mapInsert_of_not_mem k0
    (⟨e0.value, now, e0.hits + 1⟩ : CacheEntry V) rest hnotmem
  simp only [LRUCache.get, hfind]
  exact ⟨by rw [herase, hins], trivial, trivial⟩

/-- C3 as stated is false: with capacity 2, keys "a" then "b", a `get` on
"a" and then 2 (= capacity) more fresh inserts, "a" has been evicted as
well, even though it was promoted by the `get`. -/
theorem lru_promote_counterexample :
    ((((((LRUCache.empty String Nat 2).set 0 "a" 1).set 1 "b" 2).get 2 "a").2.set 3 "x" 3).set
        4 "y" 4).hasKey "a" = false := by
  decide

/-- C3 amended: for a cache filled to capacity (`rest1.length + 2`) whose
oldest key is `k0` and second-oldest is `k1`, after `get k0` and then
capacity − 1 fresh distinct inserts, `k0` is still present (it was
promoted to most-recently-used) while `k1` — like every other original
key — has been evicted, the second-oldest first.  (Inserting a full
`capacity` of new keys, as the claim literally states, would evict `k0`
too.) -/
theorem lru_promote_survives {K V : Type} [DecidableEq K] (now : Nat) (k0 k1 : K)
    (e0 e1 : CacheEntry V) (rest1 : List (K × CacheEntry V)) (kvs : List (K × V))
    (hnd : (((k0, e0) :: (k1, e1) :: rest1).map Prod.fst).Nodup)
    (hkvslen : kvs.length = rest1.length + 1)
    (hkvnd : (kvs.map Prod.fst).Nodup)
    (hfresh : ∀ p ∈ kvs, p.1 ∉ ((k0, e0) :: (k1, e1) :: rest1).map Prod.fst) :
    (kvs.foldl (fun s p => s.set now p.1 p.2)
        ((⟨(k0, e0) :: (k1, e1) :: rest1, rest1.length + 2,
            ((rest1.length + 2 : Nat) : Int)⟩ : LRUCache K V).get now k0).2).hasKey k0 = true
    ∧ (kvs.foldl (fun s p => s.set now p.1 p.2)
        ((⟨(k0, e0) :: (k1, e1) :: rest1, rest1.length + 2,
            ((rest1.length + 2 : Nat) : Int)⟩ : LRUCache K V).get now k0).2).hasKey k1
        = false := by
  obtain ⟨gc, gs, gm⟩ := get_head_promotes
    (⟨(k0, e0) :: (k1, e1) :: rest1, rest1.length + 2,
      ((rest1.length + 2 : Nat) : Int)⟩ : LRUCache K V) now k0 e0 ((k1, e1) :: rest1) rfl hnd
  have hlen1 : (((⟨(k0, e0) :: (k1, e1) :: rest1, rest1.length + 2,
        ((rest1.length + 2 : Nat) : Int)⟩ : LRUCache K V).get now k0).2).cache.length
      = rest1.length + 2 := by
    rw [gc]
    simp
  have h1 : (((⟨(k0, e0) :: (k1, e1) :: rest1, rest1.length + 2,
        ((rest1.length + 2 : Nat) : Int)⟩ : LRUCache K V).get now k0).2).currentSize
      = ((((⟨(k0, e0) :: (k1, e1) :: rest1, rest1.length + 2,
        ((rest1.length + 2 : Nat) : Int)⟩ : LRUCache K V).get now k0).2).cache.length : Int) := by
    rw [gs, hlen1]
  have h2 : (((⟨(k0, e0) :: (k1, e1) :: rest1, rest1.length + 2,
        ((rest1.length + 2 : Nat) : Int)⟩ : LRUCache K V).get now k0).2).cache.length
      = (((⟨(k0, e0) :: (k1, e1) :: rest1, rest1.length + 2,
        ((rest1.length + 2 : Nat) : Int)⟩ : LRUCache K V).get now k0).2).maxSize := by
    rw [hlen1, gm]
  have hfresh' : ∀ p ∈ kvs, mapFind p.1
      (((⟨(k0, e0) :: (k1, e1) :: rest1, rest1.length + 2,
        ((rest1.length + 2 : Nat) : Int)⟩ : LRUCache K V).get now k0).2).cache = none := by
    intro p hp
    have hnm := hfresh p hp
    simp only [List.map_cons, List.mem_cons] at hnm
    push_neg at hnm
    rw [mapFind_eq_none_iff, gc]
    simp only [List.map_cons, List.map_append, List.map_nil, List.mem_cons, List.mem_append,
      List.mem_singleton]
    push_neg
    exact ⟨⟨hnm.2.1, hnm.2.2⟩, hnm.1, by simp⟩
  have hlenle : kvs.length
      ≤ (((⟨(k0, e0) :: (k1, e1) :: rest1, rest1.length + 2,
        ((rest1.length + 2 : Nat) : Int)⟩ : LRUCache K V).get now k0).2).cache.length := by
    rw [hlen1, hkvslen]
    omega
  obtain ⟨fc, _, _⟩ := foldl_set_evict now kvs _ h1 h2 hfresh' hkvnd hlenle
  have hdrop : (((⟨(k0, e0) :: (k1, e1) :: rest1, rest1.length + 2,
        ((rest1.length + 2 : Nat) : Int)⟩ : LRUCache K V).get now k0).2).cache.drop kvs.length
      = [(k0, ⟨e0.value, now, e0.hits + 1⟩)] := by
    rw [gc, hkvslen]
    rw [show ((k1, e1) :: rest1 ++ [((k0 : K), (⟨e0.value, now, e0.hits + 1⟩ : CacheEntry V))])
        = ((k1, e1) :: rest1) ++ [(k0, ⟨e0.value, now, e0.hits + 1⟩)] from rfl]
    rw [List.drop_append_of_le_length (by simp : rest1.length + 1 ≤ ((k1, e1) :: rest1).length)]
    rw [show rest1.length + 1 = ((k1, e1) :: rest1).length from by simp, List.drop_length]
    rfl
  have hfinal : (kvs.foldl (fun s p => s.set now p.1 p.2)
        ((⟨(k0, e0) :: (k1, e1) :: rest1, rest1.length + 2,
          ((rest1.length + 2 : Nat) : Int)⟩ : LRUCache K V).get now k0).2).cache
      = (k0, ⟨e0.value, now, e0.hits + 1⟩)
          :: kvs.map (fun p => (p.1, (⟨p.2, now, 0⟩ : CacheEntry V))) := by
    rw [fc, hdrop]
    rfl
  constructor
  · rw [LRUCache.hasKey, hfinal]
    simp [mapFind]
  · have hne10 : k1 ≠ k0 := by
      simp only [List.map_cons, List.nodup_cons, List.mem_cons] at hnd
      intro h
      exact hnd.1 (Or.inl h.symm)
    have hnotin : k1 ∉ (kvs.map (fun p => (p.1, (⟨p.2, now, 0⟩ : CacheEntry V)))).map
        Prod.fst := by
      rw [map_fst_entries]
      intro hm
      obtain ⟨p, hp, hpk⟩ := List.mem_map.mp hm
      have := hfresh p hp
      simp only [List.map_cons, List.mem_cons] at this
      push_neg at this
      exact this.2.1 hpk
    have hfind : mapFind k1 (kvs.foldl (fun s p => s.set now p.1 p.2)
          ((⟨(k0, e0) :: (k1, e1) :: rest1, rest1.length + 2,
            ((rest1.length + 2 : Nat) : Int)⟩ : LRUCache K V).get now k0).2).cache
        = none := by
      rw [mapFind_eq_none_iff, hfinal, List.map_cons, List.mem_cons]
      push_neg
      exact ⟨hne10, hnotin⟩
    rw [LRUCache.hasKey, hfind]
    rfl

/-- Witness for C3 (amended): capacity 2, keys "a" (oldest) and "b",
`get "a"`, then one fresh insert; "a" survives, "b" is evicted. -/
theorem lru_promote_survives_witness :
    ([(("x" : String), (5 : Nat))].foldl (fun s p => s.set 7 p.1 p.2)
        ((⟨[("a", ⟨1, 0, 0⟩), ("b", ⟨2, 0, 0⟩)], 2, (2 : Int)⟩
          : LRUCache String Nat).get 7 "a").2).hasKey "a" = true
    ∧ ([(("x" : String), (5 : Nat))].foldl (fun s p => s.set 7 p.1 p.2)
        ((⟨[("a", ⟨1, 0, 0⟩), ("b", ⟨2, 0, 0⟩)], 2, (2 : Int)⟩
          : LRUCache String Nat).get 7 "a").2).hasKey "b" = false :=
  lru_promote_survives 7 "a" "b" ⟨1, 0, 0⟩ ⟨2, 0, 0⟩ [] [("x", 5)]
    (by decide) (by decide) (by decide) (by decide)

theorem profileStep_error (cacheEnabled : Bool)
    (cache1 : LRUCache String SupermemoryProfile) (now : Nat) (request : GetContextRequest)
    (ctx : FormattedContext) (cacheKey : String) (e : String) :
    VapiMemory.profileStep cacheEnabled cache1 now request ctx cacheKey (Except.error e)
      = (ctx, [], cache1) := by
  unfold VapiMemory.profileStep
  by_cases h : ctx.profile.isNone = true ∧ request.includeProfile ≠ some false
  · rw [if_pos h]
  · rw [if_neg h]

theorem recentStep_ok (request : GetContextRequest) (ctx : FormattedContext)
    (memories : SearchResponse)
    (h1 : request.includeRecent ≠ some false)
    (h2 : request.callId.isSome = true) :
    VapiMemory.recentStep request ctx (Except.ok memories)
      = ({ ctx with
            recentMemories := memories.results.filterMap (fun r => r.memory)
            totalTokens := ctx.totalTokens
              + TokenCounter.estimateMultiple (memories.results.filterMap (fun r => r.memory)) },
          ["recent-memories"]) := by
  unfold VapiMemory.recentStep
  rw [if_pos ⟨h1, h2⟩]

theorem cacheStep_profile_not_mem (cacheEnabled : Bool)
    (profileCache : LRUCache String SupermemoryProfile) (now : Nat)
    (request : GetContextRequest) (ctx : FormattedContext) (cacheKey : String) :
    "profile" ∉ (VapiMemory.cacheStep cacheEnabled profileCache now request ctx cacheKey).2.1 := by
  unfold VapiMemory.cacheStep
  by_cases hce : cacheEnabled = true
  · rw [if_pos hce]
    rcases hget : profileCache.get now cacheKey with ⟨opt, pc⟩
    cases opt with
    | none => simp
    | some cached =>
      cases hsr : cached.searchResults with
      | none =>
        simp only [hsr]
        show "profile" ∉ ["cache"]
        decide
      | some sr =>
        simp only [hsr]
        by_cases hs : request.includeSearch ≠ some false
        · rw [if_pos hs]
          show "profile" ∉ ["cache", "search"]
          decide
        · rw [if_neg hs]
          show "profile" ∉ ["cache"]
          decide
  · rw [if_neg hce]
    simp

/-- C2: when the backend profile call fails but the recent-memories search
succeeds (with `includeRecent` enabled and a `callId` supplied),
`getContext` still returns normally, its `recentMemories` is populated
from the search results' `memory` fields, and `"profile"` never appears in
the metadata `sources`. -/
theorem getContext_profile_failure (cacheEnabled : Bool)
    (profileCache : LRUCache String SupermemoryProfile) (now : Nat)
    (request : GetContextRequest) (e : String) (memories : SearchResponse)
    (hrecent : request.includeRecent ≠ some false)
    (hcall : request.callId.isSome = true) :
    ∃ ctx cache2,
      VapiMemory.getContext cacheEnabled profileCache now request (Except.error e)
          (Except.ok memories)
        = Except.ok (ctx, cache2)
      ∧ ctx.recentMemories = memories.results.filterMap (fun r => r.memory)
      ∧ "profile" ∉ ctx.metadata.sources := by
  set s1 := VapiMemory.cacheStep cacheEnabled profileCache now request
    ⟨none, [], [], 0, ⟨request.userId, 0, []⟩⟩ ("profile:" ++ request.userId) with hs1
  have hgc : VapiMemory.getContext cacheEnabled profileCache now request (Except.error e)
        (Except.ok memories)
      = Except.ok
        ({ (VapiMemory.recentStep request s1.1 (Except.ok memories)).1 with
            metadata :=
              { userId := request.userId
                retrievalTime := (now : Int) - (now : Int)
                sources := s1.2.1 ++ []
                  ++ (VapiMemory.recentStep request s1.1 (Except.ok memories)).2 } },
          s1.2.2) := by
    unfold VapiMemory.getContext
    dsimp only
    rw [profileStep_error]
  rw [recentStep_ok request s1.1 memories hrecent hcall] at hgc
  refine ⟨_, _, hgc, rfl, ?_⟩
  show "profile" ∉ s1.2.1 ++ [] ++ ["recent-memories"]
  have h := cacheStep_profile_not_mem cacheEnabled profileCache now request
    ⟨none, [], [], 0, ⟨request.userId, 0, []⟩⟩ ("profile:" ++ request.userId)
  rw [← hs1] at h
  intro hmem
  simp only [List.mem_append, List.not_mem_nil, or_false] at hmem
  rcases hmem with h1 | h1
  · exact h h1
  · simp only [List.mem_singleton] at h1
    exact absurd h1 (by decide)

/-- Witness for C2 at concrete inputs. -/
theorem getContext_profile_failure_witness :
    ∃ ctx cache2,
      VapiMemory.getContext true (LRUCache.empty String SupermemoryProfile 100) 0
          ⟨"u", none, some "call1", none, none, none, none⟩ (Except.error "boom")
          (Except.ok ⟨[⟨some "m1", 1⟩]⟩)
        = Except.ok (ctx, cache2)
      ∧ ctx.recentMemories
          = (⟨[⟨some "m1", 1⟩]⟩ : SearchResponse).results.filterMap (fun r => r.memory)
      ∧ "profile" ∉ ctx.metadata.sources :=
  getContext_profile_failure true (LRUCache.empty String SupermemoryProfile 100) 0
    ⟨"u", none, some "call1", none, none, none, none⟩ "boom" ⟨[⟨some "m1", 1⟩]⟩
    (by decide) (by decide)
